import Mathlib

/-!
Verification of the storage / concurrency / caching subsystem of the
mastra-text-to-query repository: a shallow embedding, translated from
`src/template-text-to-mongodb/.mastra/.build/@mastra-core-utils-zod-to-json.mjs`,
of

* the JavaScript string operations the Memory engine relies on
  (`split(/\s+/)`, `trim`, `includes`, `replace`, `replaceAll`);
* `Memory.chunkText` and the `CHARS_PER_TOKEN` constant;
* the merge logic of `Memory.__experimental_updateWorkingMemoryVNext`;
* the xxhash32 content hash and the embedding cache of
  `Memory.embedMessageContent`;
* the weighted `Semaphore` (acquire / release / cancel / releaser) and the
  derived `Mutex`;
* a two-task interleaving model of mutex-guarded working-memory updates;
* the `last` message-limit resolution used by `Memory.query`.
-/

/-! ## JavaScript string primitives

Strings are modelled by Lean `String`; the JS operations used by the source
are re-implemented on the underlying character lists.  JS `.length` counts
UTF-16 units while `String.length` counts characters; the two agree on all
inputs considered here (the source never splits surrogate pairs).
-/

/-- The whitespace class of the JS regexp `\s` (ASCII part: space, tab,
newline, vertical tab, form feed, carriage return). -/
def isWsChar (c : Char) : Bool :=
  c == ' ' || c == '\t' || c == '\n' || c == '\x0b' || c == '\x0c' || c == '\r'

/-- Worker for `splitWs`: `cur` is the reversed current token, `afterWs`
records whether we are inside a whitespace run (whose token was already
emitted). -/
def splitWsGo : List Char → List Char → Bool → List String
  | [], cur, _ => [String.mk cur.reverse]
  | c :: rest, cur, afterWs =>
    if isWsChar c then
      if afterWs then splitWsGo rest [] true
      else String.mk cur.reverse :: splitWsGo rest [] true
    else splitWsGo rest (c :: cur) false

/-- JS `text.split(/\s+/)`: split at maximal whitespace runs; a leading or
trailing run contributes an empty token, and `""` splits to `[""]`. -/
def splitWs (s : String) : List String :=
  splitWsGo s.data [] false

/-- JS `String.prototype.trim`. -/
def jsTrim (s : String) : String :=
  String.mk (((s.data.dropWhile isWsChar).reverse.dropWhile isWsChar).reverse)

/-- Worker for `jsIncludes`: does `needle` occur in the subject? -/
def containsGo (needle : List Char) : List Char → Bool
  | [] => needle.isEmpty
  | c :: rest => needle.isPrefixOf (c :: rest) || containsGo needle rest

/-- JS `hay.includes(needle)`. -/
def jsIncludes (hay needle : String) : Bool :=
  containsGo needle.data hay.data

/-- Worker for `jsReplaceFirst`: replace the leftmost occurrence of `pat`
(the empty pattern matches at position 0, as in JS). -/
def replaceFirstGo (pat rep : List Char) : List Char → List Char
  | [] => if pat.isEmpty then rep else []
  | c :: rest =>
    if pat.isPrefixOf (c :: rest) then rep ++ (c :: rest).drop pat.length
    else c :: replaceFirstGo pat rep rest

/-- JS `s.replace(pat, rep)` with string arguments: first occurrence only. -/
def jsReplaceFirst (s pat rep : String) : String :=
  String.mk (replaceFirstGo pat.data rep.data s.data)

/-- Worker for `jsReplaceAll` on a nonempty pattern.  The fuel argument is
initialised with the length of the subject; every step consumes at least one
character, so the fuel never runs out. -/
def replaceAllGo (pat rep : List Char) : Nat → List Char → List Char
  | 0, s => s
  | _ + 1, [] => []
  | fuel + 1, c :: rest =>
    if pat.isPrefixOf (c :: rest) then rep ++ replaceAllGo pat rep fuel ((c :: rest).drop pat.length)
    else c :: replaceAllGo pat rep fuel rest

/-- JS `s.replaceAll(pat, rep)` with string arguments: every occurrence,
scanning left to right; the empty pattern matches at every position. -/
def jsReplaceAll (s pat rep : String) : String :=
  if pat.data.isEmpty then
    String.mk (rep.data ++ s.data.foldr (fun c acc => c :: (rep.data ++ acc)) [])
  else
    String.mk (replaceAllGo pat.data rep.data s.data.length s.data)

/-! ## Text chunking (`Memory.chunkText`) -/

/-- `CHARS_PER_TOKEN` from src/index.ts. -/
def CHARS_PER_TOKEN : Nat := 4

/-- The loop body of `Memory.chunkText`: `cur` is `currentChunk`; a chunk is
flushed when adding the next word (with its separating space) would exceed
`charSize`. -/
def chunkGo (charSize : Nat) : List String → String → List String
  | [], cur => if cur = "" then [] else [cur]
  | w :: rest, cur =>
    let wws := if cur = "" then w else " " ++ w
    if charSize < cur.length + wws.length then
      cur :: chunkGo charSize rest w
    else
      chunkGo charSize rest (cur ++ wws)

/-- `Memory.chunkText(text, tokenSize)` (the source defaults
`tokenSize = 4096`). -/
def chunkText (text : String) (tokenSize : Nat) : List String :=
  chunkGo (tokenSize * CHARS_PER_TOKEN) (splitWs text) ""

/-! ## Working-memory merge (`Memory.__experimental_updateWorkingMemoryVNext`)

The function is modelled after the mutex has been acquired: its inputs are
the existing stored value (`getWorkingMemory(...) || ""`), the new content,
the optional caller-supplied search string, and the template's `content`
string.  The outcome is the returned `success`/`reason` pair together with
the value passed to storage (`write = none` models the early returns that
perform no storage write). -/

structure WMResult where
  success : Bool
  reason : String
  write : Option String
deriving Repr, DecidableEq

/-- `workingMemory = template?.content ? workingMemory.replaceAll(template?.content, "") : workingMemory`:
strip every occurrence of the template text (skipped when the template text
is empty, which is falsy in JS). -/
def stripTemplate (wm tc : String) : String :=
  if tc = "" then wm else jsReplaceAll wm tc ""

/-- JS truthiness of the optional `searchString` argument. -/
def ssTruthy : Option String → Bool
  | some s => s ≠ ""
  | none => false

/-- The guard `searchString && existingWorkingMemory?.includes(searchString)`. -/
def ssFound (existing : String) (searchString : Option String) : Bool :=
  match searchString with
  | some s => s ≠ "" && jsIncludes existing s
  | none => false

/-- The merge logic of `__experimental_updateWorkingMemoryVNext` (lines
576-628 of the source), as a pure function of the values read under the
mutex. -/
def updateWorkingMemoryVNext (existing newMemory : String) (searchString : Option String)
    (templateContent : String) : WMResult :=
  if existing ≠ "" then
    if ssFound existing searchString then
      { success := true
        reason := "found and replaced searchString with newMemory"
        write := some (stripTemplate (jsReplaceFirst existing (searchString.getD "") newMemory)
          templateContent) }
    else if jsIncludes existing newMemory || jsTrim templateContent == jsTrim newMemory then
      { success := false
        reason := "attempted to insert duplicate data into working memory. this entry was skipped"
        write := none }
    else
      { success := true
        reason :=
          if ssTruthy searchString then
            "attempted to replace working memory string that doesn't exist. Appending to working memory instead."
          else
            "appended newMemory to end of working memory"
        write := some (stripTemplate (existing ++ "\n" ++ newMemory) templateContent) }
  else if newMemory = templateContent then
    { success := false
      reason := "try again when you have data to add. newMemory was equal to the working memory template"
      write := none }
  else
    { success := true
      reason := "started new working memory"
      write := some (stripTemplate newMemory templateContent) }

/-- The stored working-memory value after the call: unchanged unless the call
performed a storage write. -/
def applyWrite (stored : String) (r : WMResult) : String :=
  r.write.getD stored

/-! ## xxhash32 (the `hasher` of `Memory`)

`Memory.embedMessageContent` keys its cache by `(await this.hasher).h32(content)`:
xxhash32 with seed 0 over the UTF-8 bytes of the whole input text.  The
32-bit algorithm is embedded below over byte lists (all arithmetic mod
`2 ^ 32`). -/

def xxP1 : Nat := 2654435761

def xxP2 : Nat := 2246822519

def xxP3 : Nat := 3266489917

def xxP4 : Nat := 668265263

def xxP5 : Nat := 374761393

/-- `2 ^ 32`. -/
def M32 : Nat := 4294967296

/-- 32-bit left rotation (argument below `2 ^ 32`). -/
def rotl32 (x r : Nat) : Nat :=
  (x % 2 ^ (32 - r)) * 2 ^ r + x / 2 ^ (32 - r)

/-- A little-endian 32-bit lane from four bytes. -/
def le32 (b0 b1 b2 b3 : Nat) : Nat :=
  b0 + b1 * 256 + b2 * 65536 + b3 * 16777216

/-- One accumulator round of the 16-byte stripe loop. -/
def xxRound (v lane : Nat) : Nat :=
  rotl32 ((v + lane * xxP2) % M32) 13 * xxP1 % M32

/-- Consume 16-byte stripes while at least 16 bytes remain. -/
def xxStripes : List Nat → Nat → Nat → Nat → Nat → Nat × Nat × Nat × Nat × List Nat
  | b0 :: b1 :: b2 :: b3 :: b4 :: b5 :: b6 :: b7 ::
      b8 :: b9 :: b10 :: b11 :: b12 :: b13 :: b14 :: b15 :: rest, v1, v2, v3, v4 =>
    xxStripes rest (xxRound v1 (le32 b0 b1 b2 b3)) (xxRound v2 (le32 b4 b5 b6 b7))
      (xxRound v3 (le32 b8 b9 b10 b11)) (xxRound v4 (le32 b12 b13 b14 b15))
  | rest, v1, v2, v3, v4 => (v1, v2, v3, v4, rest)

/-- Consume remaining 4-byte lanes. -/
def xxTail4 : Nat → List Nat → Nat × List Nat
  | h, b0 :: b1 :: b2 :: b3 :: rest =>
    xxTail4 (rotl32 ((h + le32 b0 b1 b2 b3 * xxP3) % M32) 17 * xxP4 % M32) rest
  | h, rest => (h, rest)

/-- Consume remaining single bytes. -/
def xxTail1 : Nat → List Nat → Nat
  | h, b :: rest => xxTail1 (rotl32 ((h + b * xxP5) % M32) 11 * xxP1 % M32) rest
  | h, [] => h

/-- The final avalanche. -/
def xxAvalanche (h0 : Nat) : Nat :=
  let h1 := h0 ^^^ (h0 / 2 ^ 15)
  let h2 := h1 * xxP2 % M32
  let h3 := h2 ^^^ (h2 / 2 ^ 13)
  let h4 := h3 * xxP3 % M32
  h4 ^^^ (h4 / 2 ^ 16)

/-- xxhash32 of a byte list (seed below `2 ^ 32`). -/
def xxh32 (bytes : List Nat) (seed : Nat) : Nat :=
  let p :=
    if 16 ≤ bytes.length then
      match xxStripes bytes ((seed + xxP1 + xxP2) % M32) ((seed + xxP2) % M32) (seed % M32)
          ((seed + (M32 - xxP1)) % M32) with
      | (v1, v2, v3, v4, rest) =>
        ((rotl32 v1 1 + rotl32 v2 7 + rotl32 v3 12 + rotl32 v4 18) % M32, rest)
    else ((seed + xxP5) % M32, bytes)
  match p with
  | (h0, rest) =>
    match xxTail4 ((h0 + bytes.length) % M32) rest with
    | (h2, rest2) => xxAvalanche (xxTail1 h2 rest2)

/-- UTF-8 bytes of one character (as `TextEncoder` produces). -/
def utf8Char (c : Char) : List Nat :=
  let n := c.toNat
  if n < 128 then [n]
  else if n < 2048 then [192 + n / 64, 128 + n % 64]
  else if n < 65536 then [224 + n / 4096, 128 + n / 64 % 64, 128 + n % 64]
  else [240 + n / 262144, 128 + n / 4096 % 64, 128 + n / 64 % 64, 128 + n % 64]

/-- UTF-8 bytes of a string. -/
def utf8Encode (s : String) : List Nat :=
  (s.data.map utf8Char).flatten

/-- The cache key `(await this.hasher).h32(content)`: xxhash32, seed 0, of the
whole input text. -/
def h32 (content : String) : Nat :=
  xxh32 (utf8Encode content) 0

/-! ## Embedding cache (`Memory.embedMessageContent`)

The embedding provider is abstracted as a pure function from chunk list to
vector list; each call of the model returns the result, the updated cache
(a JS `Map` keyed by the content hash, in insertion order) and the number of
provider invocations performed (0 on a cache hit, 1 on a miss). -/

structure EmbedResult where
  embeddings : List (List Int)
  chunks : List String
  dimension : Option Nat
deriving Repr, DecidableEq

/-- `this.embeddingCache.get(key)`. -/
def lookupCache (cache : List (Nat × EmbedResult)) (k : Nat) : Option EmbedResult :=
  (cache.find? (fun e => e.1 == k)).map (fun e => e.2)

/-- `Memory.embedMessageContent(content)`: on a cache hit return the cached
entry verbatim with no provider call; on a miss chunk the text (token size
4096), embed the chunks, and store the entry under the content hash. -/
def embedMessageContent (embedder : List String → List (List Int))
    (cache : List (Nat × EmbedResult)) (content : String) :
    EmbedResult × List (Nat × EmbedResult) × Nat :=
  let key := h32 content
  match lookupCache cache key with
  | some cached => (cached, cache, 0)
  | none =>
    let chunks := chunkText content 4096
    let embeddings := embedder chunks
    let result : EmbedResult :=
      { embeddings := embeddings, chunks := chunks,
        dimension := embeddings.head?.map List.length }
    (result, cache ++ [(key, result)], 1)

/-- Embed a list of texts in order, threading the cache and summing the
provider invocations. -/
def embedFold (embedder : List String → List (List Int))
    (cache : List (Nat × EmbedResult)) : List String → List (Nat × EmbedResult) × Nat
  | [] => (cache, 0)
  | t :: rest =>
    match embedMessageContent embedder cache t with
    | (_, cache2, n) =>
      match embedFold embedder cache2 rest with
      | (cache3, m) => (cache3, n + m)

/-! ## The weighted `Semaphore`

State machine translated from the `Semaphore` class.  A queued request is a
`QTask`; a dispatched request is recorded as a `Permit` holding the state of
its releaser closure (`called` flag).  Promise resolutions are recorded in
`dispatched` (`[previousValue, releaser]` resolutions, in order) and
`rejected` (ids rejected by `cancel`).  `waitForUnlock` and the
`_weightedWaiters` array are not modelled: `_drainUnlockWaiters` resolves
those waiters but never changes `_value`, `_queue` or any releaser, so the
projection onto the modelled fields is exact. -/

structure QTask where
  id : Nat
  weight : Nat
  priority : Int
deriving Repr, DecidableEq

structure Permit where
  id : Nat
  weight : Nat
  released : Bool
deriving Repr, DecidableEq

structure SemState where
  value : Int
  queue : List QTask
  permits : List Permit
  rejected : List Nat
  dispatched : List (Nat × Int)
deriving Repr, DecidableEq

/-- `findIndexFromEnd(a, predicate)`: the last index satisfying the
predicate (`none` models the source's `-1`). -/
def findIndexFromEnd : List α → (α → Bool) → Option Nat
  | [], _ => none
  | a :: rest, p =>
    match findIndexFromEnd rest p with
    | some i => some (i + 1)
    | none => if p a then some 0 else none

/-- `a.splice(n, 0, v)`. -/
def insertAt (l : List α) (n : Nat) (a : α) : List α :=
  l.take n ++ a :: l.drop n

/-- `_dispatchItem`: record the previous value, deduct the weight, resolve
the promise with a fresh (uncalled) releaser. -/
def dispatchItem (s : SemState) (t : QTask) : SemState :=
  { s with value := s.value - t.weight,
           permits := s.permits ++ [{ id := t.id, weight := t.weight, released := false }],
           dispatched := s.dispatched ++ [(t.id, s.value)] }

/-- The loop of `_dispatchQueue`: shift and dispatch the head while its
weight fits the available value. -/
def dispatchGo : List QTask → Int → List Permit → List (Nat × Int) →
    List QTask × Int × List Permit × List (Nat × Int)
  | [], v, ps, d => ([], v, ps, d)
  | t :: rest, v, ps, d =>
    if (t.weight : Int) ≤ v then
      dispatchGo rest (v - t.weight) (ps ++ [{ id := t.id, weight := t.weight, released := false }])
        (d ++ [(t.id, v)])
    else (t :: rest, v, ps, d)

/-- `_dispatchQueue()`. -/
def semDispatchQueue (s : SemState) : SemState :=
  match dispatchGo s.queue s.value s.permits s.dispatched with
  | (q, v, ps, d) => { value := v, queue := q, permits := ps, rejected := s.rejected, dispatched := d }

/-- `acquire(weight, priority)`.  The source throws on `weight <= 0`; the
model keeps the state unchanged there (the claims only exercise positive
weights). -/
def semAcquire (s : SemState) (id w : Nat) (p : Int) : SemState :=
  if w = 0 then s
  else if findIndexFromEnd s.queue (fun t => p ≤ t.priority) = none ∧ (w : Int) ≤ s.value then
    dispatchItem s { id := id, weight := w, priority := p }
  else
    { s with queue :=
        (insertAt s.queue (((findIndexFromEnd s.queue (fun t => p ≤ t.priority)).map (· + 1)).getD 0)
          { id := id, weight := w, priority := p }) }

/-- `release(weight)` (again a no-op in place of the `weight <= 0` throw). -/
def semRelease (s : SemState) (w : Nat) : SemState :=
  if w = 0 then s else semDispatchQueue { s with value := s.value + w }

/-- `cancel()`: reject every queued task, empty the queue. -/
def semCancel (s : SemState) : SemState :=
  { s with rejected := s.rejected ++ s.queue.map (fun t => t.id), queue := [] }

/-- Mark the releaser of permit `id` as called. -/
def markReleased (ps : List Permit) (id : Nat) : List Permit :=
  ps.map (fun p => if p.id = id then { p with released := true } else p)

/-- Invoke the releaser `_newReleaser(weight)` returned for task `id`: a
no-op once `called` is set, otherwise set it and `release(weight)`. -/
def callReleaser (s : SemState) (id : Nat) : SemState :=
  match s.permits.find? (fun p => p.id == id) with
  | none => s
  | some p => if p.released then s else semRelease { s with permits := markReleased s.permits id } p.weight

inductive SemOp
  | acquire (id w : Nat) (p : Int)
  | release (w : Nat)
  | releaser (id : Nat)
  | cancel
deriving Repr, DecidableEq

def semStep (s : SemState) : SemOp → SemState
  | .acquire id w p => semAcquire s id w p
  | .release w => semRelease s w
  | .releaser id => callReleaser s id
  | .cancel => semCancel s

def runSem (s : SemState) : List SemOp → SemState
  | [] => s
  | op :: rest => runSem (semStep s op) rest

/-- `new Semaphore(v)`. -/
def initSem (v : Int) : SemState :=
  { value := v, queue := [], permits := [], rejected := [], dispatched := [] }

/-! ## The derived `Mutex`

A `Mutex` wraps `new Semaphore(1)`: `acquire()` is `semaphore.acquire(1, 0)`
returning the releaser, `release()` releases one unit only when
`isLocked()` (`_value <= 0`). -/

inductive MutexOp
  | acquire (id : Nat)
  | release
  | releaser (id : Nat)
deriving Repr, DecidableEq

def mutexStep (s : SemState) : MutexOp → SemState
  | .acquire id => semAcquire s id 1 0
  | .release => if s.value ≤ 0 then semRelease s 1 else s
  | .releaser id => callReleaser s id

def runMutex (s : SemState) : List MutexOp → SemState
  | [] => s
  | op :: rest => runMutex (mutexStep s op) rest

/-- The number of outstanding permits whose releaser has not been called. -/
def unreleasedCount (s : SemState) : Nat :=
  (s.permits.filter (fun p => !p.released)).length

/-! ## Two concurrent working-memory updates

`__experimental_updateWorkingMemoryVNext` serialises its critical section
with one lazily created mutex per scope key
(`resource-${resourceId}` / `thread-${threadId}`): it acquires the key's
mutex, reads the stored value, computes the merged value, writes it, and
releases in a `finally` block.  The JS event loop runs the code between two
`await`s atomically, so a call is a sequence of four atomic segments:
acquire, read, write (the pure merge folded into the write), release.  Two
concurrent calls are modelled as tasks `0` and `1` over keys `keys t` with
merge functions `fns t`, interleaved by an arbitrary scheduler; a mutex
starts unlocked (lazily created) and its release hands the lock directly to
the head of the waiting queue, as `_dispatchQueue` does. -/

inductive TPc
  | acq
  | blocked
  | rd
  | wr
  | rel
  | done
deriving Repr, DecidableEq

structure MuSt where
  locked : Bool
  waiting : List (Fin 2)
deriving Repr, DecidableEq

structure TwoCfg (K V : Type) where
  store : K → V
  mutex : K → MuSt
  pc : Fin 2 → TPc
  saved : Fin 2 → V

/-- One atomic segment of task `t` (a no-op when the task is waiting on the
mutex or finished; a waiting task is resumed by the lock holder's release). -/
def taskStep [DecidableEq K] (keys : Fin 2 → K) (fns : Fin 2 → V → V)
    (c : TwoCfg K V) (t : Fin 2) : TwoCfg K V :=
  match c.pc t with
  | .acq =>
    let k := keys t
    let m := c.mutex k
    if m.locked then
      { c with mutex := Function.update c.mutex k { m with waiting := m.waiting ++ [t] },
               pc := Function.update c.pc t .blocked }
    else
      { c with mutex := Function.update c.mutex k { m with locked := true },
               pc := Function.update c.pc t .rd }
  | .rd =>
    { c with saved := Function.update c.saved t (c.store (keys t)),
             pc := Function.update c.pc t .wr }
  | .wr =>
    { c with store := Function.update c.store (keys t) (fns t (c.saved t)),
             pc := Function.update c.pc t .rel }
  | .rel =>
    let k := keys t
    let m := c.mutex k
    match m.waiting with
    | [] =>
      { c with mutex := Function.update c.mutex k { locked := false, waiting := [] },
               pc := Function.update c.pc t .done }
    | u :: rest =>
      { c with mutex := Function.update c.mutex k { locked := true, waiting := rest },
               pc := Function.update (Function.update c.pc t .done) u .rd }
  | .blocked => c
  | .done => c

/-- Run a schedule (an arbitrary interleaving of the two tasks). -/
def runSched [DecidableEq K] (keys : Fin 2 → K) (fns : Fin 2 → V → V)
    (c : TwoCfg K V) : List (Fin 2) → TwoCfg K V
  | [] => c
  | t :: rest => runSched keys fns (taskStep keys fns c t) rest

/-- Both tasks about to call, all mutexes lazily absent (unlocked). -/
def initCfg (keys : Fin 2 → K) (s0 : K → V) : TwoCfg K V :=
  { store := s0, mutex := fun _ => { locked := false, waiting := [] },
    pc := fun _ => .acq, saved := fun t => s0 (keys t) }

/-! ## Message-limit resolution of `Memory.query`

The `last` element of `selectBy` may be absent, the literal `false`, or a
number.  The storage adapter (`MongoDBStore.getMessages`, not part of this
repository's files) resolves it to a limit and returns at most that many
most-recent messages; `Memory.query`'s `messages` getter then re-applies the
`last` cap to the v1 list (`selectBy?.last` is falsy for `false`, `0` and
absence).  Messages are modelled by their ids in chronological order. -/

inductive LastSpec
  | absent
  | lastFalse
  | lastN (n : Nat)
deriving Repr, DecidableEq

/-- Modelled from the spec: the storage adapter's limit resolution is not
under src/ (only its caller `Memory.query` is) — "resolves an explicit
\"last N\" limit (N may be the literal value `false` meaning zero, a number,
or a default)". -/
def resolveMessageLimit (last : LastSpec) (defaultLimit : Nat) : Nat :=
  match last with
  | .absent => defaultLimit
  | .lastFalse => 0
  | .lastN n => n

/-- Modelled from the spec: the storage adapter "returns at most that many
most-recent messages for a thread". -/
def storageGetMessages (stored : List Nat) (last : LastSpec) (defaultLimit : Nat) : List Nat :=
  stored.drop (stored.length - resolveMessageLimit last defaultLimit)

/-- The `messages` getter of `Memory.query`'s result (lines 436-444 of the
source): slice the last `selectBy.last` elements when `selectBy?.last` is
truthy and the list is longer. -/
def queryMessages (stored : List Nat) (last : LastSpec) (defaultLimit : Nat) : List Nat :=
  let v1 := storageGetMessages stored last defaultLimit
  match last with
  | .lastN n => if n ≠ 0 ∧ n < v1.length then v1.drop (v1.length - n) else v1
  | _ => v1

/-! ## Theorems -/

/-- Claim C7: `cancel()` rejects exactly the currently queued (not yet
dispatched) waiters and leaves the queue empty, while the available value,
every already-dispatched permit and the dispatch log are unaffected. -/
theorem semCancel_rejects_queued_only (s : SemState) :
    (semCancel s).rejected = s.rejected ++ s.queue.map (fun t => t.id) ∧
    (semCancel s).queue = [] ∧
    (semCancel s).value = s.value ∧
    (semCancel s).permits = s.permits ∧
    (semCancel s).dispatched = s.dispatched :=
  ⟨rfl, rfl, rfl, rfl, rfl⟩

/-- Claim C9: requesting messages with the `last` limit set to the literal
value `false` returns zero messages (the storage adapter resolves `false`
to a limit of zero and the `messages` getter passes the empty list
through). -/
theorem queryMessages_lastFalse (stored : List Nat) (defaultLimit : Nat) :
    queryMessages stored LastSpec.lastFalse defaultLimit = [] := by
  simp [queryMessages, storageGetMessages, resolveMessageLimit]

/-- Claim C1: when the existing working-memory value is nonempty, no
caller-supplied search string occurs in it, and the new content is a
substring of the existing value or equals the unfilled template, the update
returns success=false with the "skipped" reason and performs no storage
write. -/
theorem updateWM_duplicate_skipped
    (existing newMemory : String) (searchString : Option String) (tmpl : String)
    (hE : existing ≠ "")
    (hs : ∀ s, searchString = some s → jsIncludes existing s = false)
    (hdup : jsIncludes existing newMemory = true ∨ newMemory = tmpl) :
    (updateWorkingMemoryVNext existing newMemory searchString tmpl).success = false ∧
    (updateWorkingMemoryVNext existing newMemory searchString tmpl).reason =
      "attempted to insert duplicate data into working memory. this entry was skipped" ∧
    (updateWorkingMemoryVNext existing newMemory searchString tmpl).write = none ∧
    applyWrite existing (updateWorkingMemoryVNext existing newMemory searchString tmpl) =
      existing := by
  have hguard : ssFound existing searchString = false := by
    cases hss : searchString with
    | none => rfl
    | some s => simp [ssFound, hs s hss]
  have hcond : (jsIncludes existing newMemory || jsTrim tmpl == jsTrim newMemory) = true := by
    rcases hdup with h | h
    · simp [h]
    · simp [h]
  unfold updateWorkingMemoryVNext
  rw [if_pos hE, hguard]
  simp [hcond, applyWrite]

/-- Witness for C1 at a concrete input. -/
theorem updateWM_duplicate_skipped_witness :
    ("hello" : String) ≠ "" ∧ jsIncludes "hello" "ell" = true ∧
    (updateWorkingMemoryVNext "hello" "ell" none "t").success = false ∧
    (updateWorkingMemoryVNext "hello" "ell" none "t").write = none :=
  ⟨by decide, by decide,
    (updateWM_duplicate_skipped "hello" "ell" none "t" (by decide)
      (fun s h => by cases h) (Or.inl (by decide))).1,
    (updateWM_duplicate_skipped "hello" "ell" none "t" (by decide)
      (fun s h => by cases h) (Or.inl (by decide))).2.2.1⟩

/-- Counterexample for C6 as stated: with existing value "yy", new content
"x " and template "x", the new content is neither a substring of the
existing value nor equal to the template verbatim, yet the code performs no
append: the duplicate test compares with the template after `trim`. -/
theorem updateWM_append_counterexample :
    ("yy" : String) ≠ "" ∧
    jsIncludes "yy" "x " = false ∧
    ("x " : String) ≠ "x" ∧
    (updateWorkingMemoryVNext "yy" "x " none "x").success = false ∧
    (updateWorkingMemoryVNext "yy" "x " none "x").write = none := by
  decide

/-- Claim C6 as amended: when the existing value is nonempty, no
caller-supplied search string occurs in it, the new content is not a
substring of the existing value and does not equal the template up to
leading/trailing whitespace, the update stores the existing value followed
by a newline and the new content, with every occurrence of the (nonempty)
template text stripped. -/
theorem updateWM_append
    (existing newMemory : String) (searchString : Option String) (tmpl : String)
    (hE : existing ≠ "")
    (hs : ∀ s, searchString = some s → jsIncludes existing s = false)
    (hsub : jsIncludes existing newMemory = false)
    (htm : jsTrim newMemory ≠ jsTrim tmpl) :
    (updateWorkingMemoryVNext existing newMemory searchString tmpl).success = true ∧
    (updateWorkingMemoryVNext existing newMemory searchString tmpl).write =
      some (stripTemplate (existing ++ "\n" ++ newMemory) tmpl) := by
  have hguard : ssFound existing searchString = false := by
    cases hss : searchString with
    | none => rfl
    | some s => simp [ssFound, hs s hss]
  have hb : (jsTrim tmpl == jsTrim newMemory) = false :=
    beq_eq_false_iff_ne.mpr (Ne.symm htm)
  have hcond : (jsIncludes existing newMemory || jsTrim tmpl == jsTrim newMemory) = false := by
    rw [hsub, hb]; rfl
  unfold updateWorkingMemoryVNext
  rw [if_pos hE, hguard]
  simp [hcond]

/-- Witness for the amended C6 at a concrete input. -/
theorem updateWM_append_witness :
    ("hello" : String) ≠ "" ∧ jsIncludes "hello" "world" = false ∧
    (updateWorkingMemoryVNext "hello" "world" none "t").success = true ∧
    (updateWorkingMemoryVNext "hello" "world" none "t").write =
      some (stripTemplate ("hello" ++ "\n" ++ "world") "t") :=
  ⟨by decide, by decide,
    (updateWM_append "hello" "world" none "t" (by decide) (fun s h => by cases h)
      (by decide) (by decide)).1,
    (updateWM_append "hello" "world" none "t" (by decide) (fun s h => by cases h)
      (by decide) (by decide)).2⟩

/-- Join a list of words with single spaces (the shape of every chunk
`chunkText` builds). -/
def sjoin : List String → String
  | [] => ""
  | w :: ws => ws.foldl (fun acc x => acc ++ " " ++ x) w

theorem sjoin_append_singleton (a : String) (rest : List String) (w : String) :
    sjoin ((a :: rest) ++ [w]) = sjoin (a :: rest) ++ " " ++ w := by
  simp [sjoin, List.foldl_append]

/-- Invariant of the `chunkText` loop: every emitted chunk either fits the
character budget or is a single word of the input, and every chunk is a
space-join of words of the input (no chunk boundary falls inside a word). -/
theorem chunkGo_mem (charSize : Nat) (allWords : List String) :
    ∀ (words : List String) (cur : String) (curl : List String),
      (∀ w ∈ words, w ∈ allWords) →
      (∀ w ∈ curl, w ∈ allWords) →
      cur = sjoin curl →
      (cur.length ≤ charSize ∨ cur ∈ allWords) →
      ∀ c ∈ chunkGo charSize words cur,
        (c.length ≤ charSize ∨ c ∈ allWords) ∧
        ∃ l, (∀ w ∈ l, w ∈ allWords) ∧ c = sjoin l := by
  intro words
  induction words with
  | nil =>
    intro cur curl hw hcurl hcur hbound c hc
    by_cases h : cur = ""
    · simp [chunkGo, h] at hc
    · simp [chunkGo, h] at hc
      subst hc
      exact ⟨hbound, curl, hcurl, hcur⟩
  | cons w rest ih =>
    intro cur curl hw hcurl hcur hbound c hc
    have hwmem : w ∈ allWords := hw w (List.mem_cons_self w rest)
    have hwrest : ∀ x ∈ rest, x ∈ allWords := fun x hx => hw x (List.mem_cons_of_mem w hx)
    simp only [chunkGo] at hc
    by_cases hover : charSize < cur.length + (if cur = "" then w else " " ++ w).length
    · rw [if_pos hover] at hc
      rcases List.mem_cons.mp hc with hceq | hcrec
      · subst hceq
        exact ⟨hbound, curl, hcurl, hcur⟩
      · refine ih w [w] hwrest ?_ ?_ (Or.inr hwmem) c hcrec
        · intro x hx
          rcases List.mem_singleton.mp hx with rfl
          exact hwmem
        · rfl
    · rw [if_neg hover] at hc
      push_neg at hover
      by_cases hemp : cur = ""
      · subst hemp
        have hlen : ("" ++ w).length ≤ charSize := by
          simpa [String.length_append] using hover
        refine ih ("" ++ w) [w] hwrest ?_ ?_ (Or.inl ?_) c (by simpa using hc)
        · intro x hx
          rcases List.mem_singleton.mp hx with rfl
          exact hwmem
        · show ("" : String) ++ w = sjoin [w]
          apply String.ext
          simp [sjoin, String.data_append]
        · exact hlen
      · have hcurl_ne : curl ≠ [] := by
          intro h
          exact hemp (by simpa [h, sjoin] using hcur)
        obtain ⟨a, curl', rfl⟩ := List.exists_cons_of_ne_nil hcurl_ne
        have hlen : (cur ++ (" " ++ w)).length ≤ charSize := by
          simpa [hemp, String.length_append] using hover
        refine ih (cur ++ (" " ++ w)) ((a :: curl') ++ [w]) hwrest ?_ ?_ (Or.inl hlen) c
          (by simpa [hemp] using hc)
        · intro x hx
          rcases List.mem_append.mp hx with hx' | hx'
          · exact hcurl x hx'
          · rcases List.mem_singleton.mp hx' with rfl
            exact hwmem
        · rw [sjoin_append_singleton, ← hcur]
          apply String.ext
          simp [String.data_append, List.append_assoc]

/-- Counterexample for C5 as stated: with token target 1 (character budget
4) the single 8-character word becomes a chunk of length 8, exceeding the
budget (and the loop also flushes a leading empty chunk). -/
theorem chunkText_budget_counterexample :
    chunkText "abcdefgh" 1 = ["", "abcdefgh"] ∧
    ("abcdefgh" : String) ∈ chunkText "abcdefgh" 1 ∧
    1 * CHARS_PER_TOKEN < ("abcdefgh" : String).length := by
  decide

/-- Claim C5 as amended: every chunk of `chunkText` either has length at
most tokenTarget × CHARS_PER_TOKEN or is a single word of the input text
(an over-long word is never split), and every chunk is a space-join of
words of the input — no chunk boundary falls inside a word. -/
theorem chunkText_chunks (text : String) (ts : Nat) (c : String)
    (hc : c ∈ chunkText text ts) :
    (c.length ≤ ts * CHARS_PER_TOKEN ∨ c ∈ splitWs text) ∧
    ∃ l, (∀ w ∈ l, w ∈ splitWs text) ∧ c = sjoin l :=
  chunkGo_mem (ts * CHARS_PER_TOKEN) (splitWs text) (splitWs text) "" []
    (fun _ hw => hw) (fun w hw => absurd hw (List.not_mem_nil w)) rfl
    (Or.inl (by simp)) c hc

/-- Witness for the amended C5 at a concrete input. -/
theorem chunkText_chunks_witness :
    (("ab" : String) ∈ chunkText "ab cd" 1) ∧
    ((("ab" : String).length ≤ 1 * CHARS_PER_TOKEN ∨ ("ab" : String) ∈ splitWs "ab cd") ∧
      ∃ l, (∀ w ∈ l, w ∈ splitWs "ab cd") ∧ ("ab" : String) = sjoin l) :=
  ⟨by decide, chunkText_chunks "ab cd" 1 "ab" (by decide)⟩

/-- Counterexample for C3 as stated: two distinct texts whose xxhash32 keys
collide share one cache entry, so embedding both invokes the provider once,
not twice. -/
theorem embedCache_collision_counterexample :
    ("urpqgoge" : String) ≠ "fmqintkn" ∧
    (embedFold (fun _ => [[1]]) [] ["urpqgoge", "fmqintkn"]).2 = 1 := by
  decide

/-- Claim C3 as amended: embedding the same text twice invokes the provider
exactly once and the second call returns the cached entry verbatim;
embedding two distinct texts whose hash keys differ invokes it exactly
twice. -/
theorem embedCache_behavior
    (embedder : List String → List (List Int)) (T T1 T2 : String)
    (h1 : T1 ≠ T2) (h2 : h32 T1 ≠ h32 T2) :
    ((embedMessageContent embedder ((embedMessageContent embedder [] T).2.1) T).1 =
        (embedMessageContent embedder [] T).1 ∧
      (embedFold embedder [] [T, T]).2 = 1) ∧
    (embedFold embedder [] [T1, T2]).2 = 2 := by
  have hne : (h32 T1 == h32 T2) = false := beq_eq_false_iff_ne.mpr h2
  refine ⟨⟨?_, ?_⟩, ?_⟩
  · simp [embedMessageContent, lookupCache]
  · simp [embedFold, embedMessageContent, lookupCache]
  · simp [embedFold, embedMessageContent, lookupCache, hne]

/-- Witness for the amended C3 at concrete inputs. -/
theorem embedCache_behavior_witness :
    ((embedMessageContent (fun _ => []) ((embedMessageContent (fun _ => []) [] "abc").2.1)
          "abc").1 = (embedMessageContent (fun _ => []) [] "abc").1 ∧
      (embedFold (fun _ => []) [] ["abc", "abc"]).2 = 1) ∧
    (embedFold (fun _ => []) [] ["a", "b"]).2 = 2 :=
  embedCache_behavior (fun _ => []) "abc" "a" "b" (by decide) (by decide)

theorem find?_append_of_some {α} (p : α → Bool) {l₁ : List α} (l₂ : List α) {a : α}
    (h : l₁.find? p = some a) : (l₁ ++ l₂).find? p = some a := by
  induction l₁ with
  | nil => exact absurd h (by simp)
  | cons x rest ih =>
    rw [List.cons_append]
    cases hpx : p x with
    | true =>
      simp only [List.find?, hpx] at h ⊢
      exact h
    | false =>
      simp only [List.find?, hpx] at h ⊢
      exact ih h

theorem find?_markReleased (ps : List Permit) (id : Nat) (p : Permit)
    (h : ps.find? (fun q => q.id == id) = some p) :
    (markReleased ps id).find? (fun q => q.id == id) = some { p with released := true } := by
  induction ps with
  | nil => exact absurd h (by simp)
  | cons x rest ih =>
    cases hx : (x.id == id) with
    | true =>
      have hxid : x.id = id := by simpa using hx
      simp only [List.find?, hx] at h
      injection h with h
      subst h
      simp [markReleased, List.find?, hxid]
    | false =>
      have hxid : ¬ x.id = id := by simpa using hx
      simp only [List.find?, hx] at h
      simp only [markReleased, List.map_cons, if_neg hxid, List.find?, hx]
      exact ih h

theorem dispatchGo_permits_prefix :
    ∀ (q : List QTask) (v : Int) (ps : List Permit) (d : List (Nat × Int)),
      ∃ ex, (dispatchGo q v ps d).2.2.1 = ps ++ ex := by
  intro q
  induction q with
  | nil => intro v ps d; exact ⟨[], by simp [dispatchGo]⟩
  | cons t rest ih =>
    intro v ps d
    by_cases h : (t.weight : Int) ≤ v
    · obtain ⟨ex, hex⟩ :=
        ih (v - t.weight) (ps ++ [{ id := t.id, weight := t.weight, released := false }])
          (d ++ [(t.id, v)])
      exact ⟨{ id := t.id, weight := t.weight, released := false } :: ex,
        by simp [dispatchGo, h, hex]⟩
    · exact ⟨[], by simp [dispatchGo, h]⟩

theorem semDispatchQueue_eq (s : SemState) :
    semDispatchQueue s =
      { value := (dispatchGo s.queue s.value s.permits s.dispatched).2.1,
        queue := (dispatchGo s.queue s.value s.permits s.dispatched).1,
        permits := (dispatchGo s.queue s.value s.permits s.dispatched).2.2.1,
        rejected := s.rejected,
        dispatched := (dispatchGo s.queue s.value s.permits s.dispatched).2.2.2 } := by
  rcases hh : dispatchGo s.queue s.value s.permits s.dispatched with ⟨q, v, ps, d⟩
  simp [semDispatchQueue, hh]

theorem semRelease_permits (s : SemState) (w : Nat) :
    ∃ ex, (semRelease s w).permits = s.permits ++ ex := by
  by_cases h : w = 0
  · exact ⟨[], by simp [semRelease, h]⟩
  · obtain ⟨ex, hex⟩ :=
      dispatchGo_permits_prefix s.queue (s.value + w) s.permits s.dispatched
    refine ⟨ex, ?_⟩
    rw [semRelease, if_neg h, semDispatchQueue_eq]
    exact hex

/-- Claim C8: invoking the releaser returned by `acquire` more than once is
a no-op after the first invocation (the releaser's `called` flag): a second
call leaves the whole semaphore state unchanged. -/
theorem releaser_idempotent (s : SemState) (id : Nat) :
    callReleaser (callReleaser s id) id = callReleaser s id := by
  cases hf : s.permits.find? (fun p => p.id == id) with
  | none => simp [callReleaser, hf]
  | some p =>
    by_cases hrel : p.released = true
    · simp [callReleaser, hf, hrel]
    · simp only [callReleaser, hf]
      rw [if_neg hrel]
      obtain ⟨ex, hex⟩ :=
        semRelease_permits { s with permits := markReleased s.permits id } p.weight
      have hfind :
          (semRelease { s with permits := markReleased s.permits id } p.weight).permits.find?
            (fun q => q.id == id) = some { p with released := true } := by
        rw [hex]
        exact find?_append_of_some _ _ (find?_markReleased s.permits id p hf)
      simp [callReleaser, hfind]

theorem fie_none_iff {α} (l : List α) (q : α → Bool) :
    findIndexFromEnd l q = none ↔ ∀ x ∈ l, q x = false := by
  induction l with
  | nil => simp [findIndexFromEnd]
  | cons a rest ih =>
    cases hr : findIndexFromEnd rest q with
    | some i =>
      simp only [findIndexFromEnd, hr]
      constructor
      · intro h; cases h
      · intro hall
        have : findIndexFromEnd rest q = none :=
          ih.mpr (fun x hx => hall x (List.mem_cons_of_mem a hx))
        rw [this] at hr
        cases hr
    | none =>
      cases hqa : q a with
      | true =>
        simp only [findIndexFromEnd, hr, hqa, if_true]
        constructor
        · intro h; cases h
        · intro hall
          have := hall a (List.mem_cons_self a rest)
          rw [hqa] at this
          cases this
      | false =>
        simp only [findIndexFromEnd, hr, hqa, if_false]
        constructor
        · intro _ x hx
          rcases List.mem_cons.mp hx with rfl | hx'
          · exact hqa
          · exact ih.mp hr x hx'
        · intro _; rfl

theorem take_takeWhile_length {α} (q : α → Bool) :
    ∀ l : List α,
      l.take (l.takeWhile q).length = l.takeWhile q ∧
      l.drop (l.takeWhile q).length = l.dropWhile q := by
  intro l
  induction l with
  | nil => simp
  | cons a rest ih =>
    cases hq : q a with
    | true =>
      simp only [List.takeWhile, List.dropWhile, hq, List.length_cons, List.take_succ_cons,
        List.drop_succ_cons]
      simp [ih.1, ih.2]
    | false =>
      simp [List.takeWhile, List.dropWhile, hq]

theorem fie_insert_pos (p : Int) :
    ∀ l : List QTask,
      l.Pairwise (fun a b => b.priority ≤ a.priority) →
      ((findIndexFromEnd l (fun t => p ≤ t.priority)).map (· + 1)).getD 0 =
        (l.takeWhile (fun t => p ≤ t.priority)).length := by
  intro l
  induction l with
  | nil => simp [findIndexFromEnd]
  | cons a rest ih =>
    intro hs
    rw [List.pairwise_cons] at hs
    obtain ⟨ha, hrest⟩ := hs
    cases hr : findIndexFromEnd rest (fun t => decide (p ≤ t.priority)) with
    | some i =>
      have hex : ∃ x ∈ rest, decide (p ≤ x.priority) = true := by
        by_contra hno
        push_neg at hno
        have hnone : findIndexFromEnd rest (fun t => decide (p ≤ t.priority)) = none :=
          (fie_none_iff _ _).mpr (fun x hx => by
            cases h : decide (p ≤ x.priority) with
            | true => exact absurd h (hno x hx)
            | false => rfl)
        rw [hnone] at hr
        cases hr
      obtain ⟨x, hx, hpx⟩ := hex
      have hpa : decide (p ≤ a.priority) = true :=
        decide_eq_true (le_trans (of_decide_eq_true hpx) (ha x hx))
      have hfa : findIndexFromEnd (a :: rest) (fun t => decide (p ≤ t.priority)) = some (i + 1) := by
        simp [findIndexFromEnd, hr]
      rw [hfa]
      have hrec := ih hrest
      rw [hr] at hrec
      simp [List.takeWhile, hpa] at hrec ⊢
      omega
    | none =>
      have hallf := (fie_none_iff _ _).mp hr
      cases hpa : decide (p ≤ a.priority) with
      | true =>
        have hfa : findIndexFromEnd (a :: rest) (fun t => decide (p ≤ t.priority)) = some 0 := by
          simp [findIndexFromEnd, hr, hpa]
        rw [hfa]
        have htw : rest.takeWhile (fun t => decide (p ≤ t.priority)) = [] := by
          cases rest with
          | nil => rfl
          | cons b rest' =>
            simp only [List.takeWhile, hallf b (List.mem_cons_self b rest')]
        simp [List.takeWhile, hpa, htw]
      | false =>
        have hfa : findIndexFromEnd (a :: rest) (fun t => decide (p ≤ t.priority)) = none := by
          simp [findIndexFromEnd, hr, hpa]
        rw [hfa]
        simp [List.takeWhile, hpa]

theorem dropWhile_priority_lt (p : Int) :
    ∀ l : List QTask,
      l.Pairwise (fun a b => b.priority ≤ a.priority) →
      ∀ b ∈ l.dropWhile (fun t => p ≤ t.priority), b.priority < p := by
  intro l
  induction l with
  | nil => simp
  | cons a rest ih =>
    intro hs
    rw [List.pairwise_cons] at hs
    obtain ⟨ha, hrest⟩ := hs
    cases hq : decide (p ≤ a.priority) with
    | true =>
      simp only [List.dropWhile, hq]
      exact ih hrest
    | false =>
      simp only [List.dropWhile, hq]
      intro b hb
      have hap : a.priority < p := by simpa using hq
      rcases List.mem_cons.mp hb with rfl | hb'
      · exact hap
      · exact lt_of_le_of_lt (ha b hb') hap

theorem insert_sorted_queue (p : Int) (task : QTask) (hp : task.priority = p)
    (l : List QTask) (hs : l.Pairwise (fun a b => b.priority ≤ a.priority)) :
    (l.takeWhile (fun t => p ≤ t.priority) ++
        task :: l.dropWhile (fun t => p ≤ t.priority)).Pairwise
      (fun a b => b.priority ≤ a.priority) := by
  rw [List.pairwise_append]
  refine ⟨hs.sublist (List.takeWhile_sublist _), ?_, ?_⟩
  · rw [List.pairwise_cons]
    refine ⟨fun b hb => ?_, hs.sublist (List.dropWhile_sublist _)⟩
    rw [hp]
    exact le_of_lt (dropWhile_priority_lt p l hs b hb)
  · intro x hx y hy
    have hxp : p ≤ x.priority := by
      have := List.mem_takeWhile_imp hx
      simpa using this
    rcases List.mem_cons.mp hy with rfl | hy'
    · rw [hp]; exact hxp
    · exact le_of_lt (lt_of_lt_of_le (dropWhile_priority_lt p l hs y hy') hxp)

theorem dispatchGo_queue_suffix :
    ∀ (q : List QTask) (v : Int) (ps : List Permit) (d : List (Nat × Int)),
      (dispatchGo q v ps d).1 <:+ q := by
  intro q
  induction q with
  | nil => intro v ps d; simp [dispatchGo]
  | cons t rest ih =>
    intro v ps d
    by_cases h : (t.weight : Int) ≤ v
    · simp only [dispatchGo, if_pos h]
      exact (ih _ _ _).trans (List.suffix_cons t rest)
    · simp only [dispatchGo, if_neg h]
      exact List.suffix_refl _

theorem semRelease_queue_sorted (s : SemState) (w : Nat)
    (hs : s.queue.Pairwise (fun a b => b.priority ≤ a.priority)) :
    (semRelease s w).queue.Pairwise (fun a b => b.priority ≤ a.priority) := by
  by_cases hw : w = 0
  · rw [semRelease, if_pos hw]; exact hs
  · rw [semRelease, if_neg hw, semDispatchQueue_eq]
    exact hs.sublist ((dispatchGo_queue_suffix _ _ _ _).sublist)

theorem semStep_queue_sorted (s : SemState) (op : SemOp)
    (hs : s.queue.Pairwise (fun a b => b.priority ≤ a.priority)) :
    (semStep s op).queue.Pairwise (fun a b => b.priority ≤ a.priority) := by
  cases op with
  | acquire id w p =>
    show (semAcquire s id w p).queue.Pairwise _
    rw [semAcquire]
    by_cases hw : w = 0
    · rw [if_pos hw]; exact hs
    · rw [if_neg hw]
      by_cases hcond : findIndexFromEnd s.queue (fun t => p ≤ t.priority) = none ∧
          (w : Int) ≤ s.value
      · rw [if_pos hcond]; exact hs
      · rw [if_neg hcond]
        show (insertAt s.queue
            (((findIndexFromEnd s.queue (fun t => p ≤ t.priority)).map (· + 1)).getD 0)
            { id := id, weight := w, priority := p }).Pairwise (fun a b => b.priority ≤ a.priority)
        simp only [insertAt]
        rw [fie_insert_pos p s.queue hs, (take_takeWhile_length _ s.queue).1,
          (take_takeWhile_length _ s.queue).2]
        exact insert_sorted_queue p _ rfl s.queue hs
  | release w => exact semRelease_queue_sorted s w hs
  | releaser id =>
    show (callReleaser s id).queue.Pairwise _
    cases hf : s.permits.find? (fun p => p.id == id) with
    | none =>
      have heq : callReleaser s id = s := by simp [callReleaser, hf]
      rw [heq]; exact hs
    | some p =>
      by_cases hrel : p.released = true
      · have heq : callReleaser s id = s := by simp [callReleaser, hf, hrel]
        rw [heq]; exact hs
      · have heq : callReleaser s id =
            semRelease { s with permits := markReleased s.permits id } p.weight := by
          simp [callReleaser, hf, hrel]
        rw [heq]
        exact semRelease_queue_sorted _ _ hs
  | cancel => simp [semStep, semCancel]

/-- Claim C4: a request whose weight does not fit the available value is
queued in descending-priority order with FIFO ties (inserted after every
queued request of priority at least its own); every semaphore operation
preserves that ordering; and a request whose weight fits and whose priority
strictly exceeds that of every queued request (in particular when the queue
is empty) is dispatched immediately, bypassing the queue. -/
theorem semAcquire_queue_discipline (s : SemState) (id w : Nat) (p : Int)
    (hs : s.queue.Pairwise (fun a b => b.priority ≤ a.priority)) (hw : w ≠ 0) :
    (s.value < (w : Int) →
      semAcquire s id w p =
        { s with queue :=
            s.queue.takeWhile (fun t => p ≤ t.priority) ++
              { id := id, weight := w, priority := p } ::
                s.queue.dropWhile (fun t => p ≤ t.priority) }) ∧
    (∀ op : SemOp, (semStep s op).queue.Pairwise (fun a b => b.priority ≤ a.priority)) ∧
    ((∀ t ∈ s.queue, t.priority < p) → (w : Int) ≤ s.value →
      semAcquire s id w p = dispatchItem s { id := id, weight := w, priority := p } ∧
      (semAcquire s id w p).queue = s.queue ∧
      (semAcquire s id w p).value = s.value - w ∧
      (semAcquire s id w p).dispatched = s.dispatched ++ [(id, s.value)]) := by
  refine ⟨?_, fun op => semStep_queue_sorted s op hs, ?_⟩
  · intro hlt
    rw [semAcquire, if_neg hw, if_neg (by
      rintro ⟨-, hle⟩
      exact absurd hle (not_le.mpr hlt))]
    simp only [insertAt]
    rw [fie_insert_pos p s.queue hs, (take_takeWhile_length _ s.queue).1,
      (take_takeWhile_length _ s.queue).2]
  · intro hall hle
    have hnone : findIndexFromEnd s.queue (fun t => p ≤ t.priority) = none :=
      (fie_none_iff _ _).mpr (fun x hx => decide_eq_false (not_le.mpr (hall x hx)))
    have heq : semAcquire s id w p = dispatchItem s { id := id, weight := w, priority := p } := by
      rw [semAcquire, if_neg hw, if_pos ⟨hnone, hle⟩]
    exact ⟨heq, by rw [heq]; rfl, by rw [heq]; rfl, by rw [heq]; rfl⟩

/-- Witness for C4 at concrete inputs: a same-priority request is queued
after the earlier one (FIFO tie), and a strictly higher-priority request
that fits is dispatched immediately. -/
theorem semAcquire_queue_discipline_witness :
    (semAcquire
        { value := 0, queue := [{ id := 7, weight := 1, priority := 5 }],
          permits := [], rejected := [], dispatched := [] } 9 1 5 =
      { value := 0,
        queue :=
          List.takeWhile (fun t => (5 : Int) ≤ t.priority)
              [{ id := 7, weight := 1, priority := 5 }] ++
            { id := 9, weight := 1, priority := 5 } ::
              List.dropWhile (fun t => (5 : Int) ≤ t.priority)
                [{ id := 7, weight := 1, priority := 5 }],
        permits := [], rejected := [], dispatched := [] }) ∧
    (semAcquire
        { value := 1, queue := [{ id := 7, weight := 1, priority := 0 }],
          permits := [], rejected := [], dispatched := [] } 9 1 5 =
      dispatchItem
        { value := 1, queue := [{ id := 7, weight := 1, priority := 0 }],
          permits := [], rejected := [], dispatched := [] }
        { id := 9, weight := 1, priority := 5 }) :=
  ⟨(semAcquire_queue_discipline _ 9 1 5 (by decide) (by decide)).1 (by decide),
    ((semAcquire_queue_discipline _ 9 1 5 (by decide) (by decide)).2.2 (by decide)
      (by decide)).1⟩

/-- The invariant behind the amended C10: the value is nonnegative, value
plus outstanding unreleased permits is at most one, and every queued task
and permit has weight one. -/
def MInv (s : SemState) : Prop :=
  0 ≤ s.value ∧
  s.value + (unreleasedCount s : Int) ≤ 1 ∧
  (∀ t ∈ s.queue, t.weight = 1) ∧
  (∀ p ∈ s.permits, p.weight = 1)

theorem mem_insertAt {α} {l : List α} {n : Nat} {a x : α}
    (h : x ∈ insertAt l n a) : x = a ∨ x ∈ l := by
  rw [insertAt] at h
  rcases List.mem_append.mp h with h' | h'
  · exact Or.inr (List.take_subset n l h')
  · rcases List.mem_cons.mp h' with rfl | h''
    · exact Or.inl rfl
    · exact Or.inr (List.drop_subset n l h'')

theorem dispatchGo_minv :
    ∀ (q : List QTask) (v : Int) (ps : List Permit) (d : List (Nat × Int)),
      (∀ t ∈ q, t.weight = 1) → 0 ≤ v → (∀ p ∈ ps, p.weight = 1) →
      0 ≤ (dispatchGo q v ps d).2.1 ∧
      (dispatchGo q v ps d).2.1 +
          ((((dispatchGo q v ps d).2.2.1).filter (fun p => !p.released)).length : Int) =
        v + ((ps.filter (fun p => !p.released)).length : Int) ∧
      (∀ t ∈ (dispatchGo q v ps d).1, t.weight = 1) ∧
      (∀ p ∈ (dispatchGo q v ps d).2.2.1, p.weight = 1) := by
  intro q
  induction q with
  | nil =>
    intro v ps d _ hv hps
    exact ⟨hv, rfl, by simp [dispatchGo], by simpa [dispatchGo] using hps⟩
  | cons t rest ih =>
    intro v ps d hq hv hps
    by_cases h : (t.weight : Int) ≤ v
    · have ht1 : t.weight = 1 := hq t (List.mem_cons_self t rest)
      have hv' : 0 ≤ v - (t.weight : Int) := by
        rw [ht1] at h ⊢
        omega
      have hps' : ∀ p ∈ ps ++ [{ id := t.id, weight := t.weight, released := false }],
          p.weight = 1 := by
        intro p hp
        rcases List.mem_append.mp hp with hp' | hp'
        · exact hps p hp'
        · rcases List.mem_singleton.mp hp' with rfl
          exact ht1
      have hrec := ih (v - t.weight) (ps ++ [{ id := t.id, weight := t.weight, released := false }])
        (d ++ [(t.id, v)]) (fun x hx => hq x (List.mem_cons_of_mem t hx)) hv' hps'
      simp only [dispatchGo, if_pos h]
      refine ⟨hrec.1, ?_, hrec.2.2.1, hrec.2.2.2⟩
      have hsum := hrec.2.1
      have hcnt : ((ps ++ [({ id := t.id, weight := t.weight, released := false } : Permit)]).filter
          (fun p => !p.released)).length = (ps.filter (fun p => !p.released)).length + 1 := by
        simp [List.filter_append]
      rw [hcnt] at hsum
      push_cast at hsum ⊢
      omega
    · simp only [dispatchGo, if_neg h]
      exact ⟨hv, by trivial, hq, hps⟩

theorem semRelease_minv (s : SemState)
    (h1 : s.value + 1 + (unreleasedCount s : Int) ≤ 1) (hv : 0 ≤ s.value)
    (hq : ∀ t ∈ s.queue, t.weight = 1) (hp : ∀ p ∈ s.permits, p.weight = 1) :
    MInv (semRelease s 1) := by
  rw [semRelease, if_neg (by norm_num : (1 : Nat) ≠ 0), semDispatchQueue_eq]
  have hd := dispatchGo_minv s.queue (s.value + 1) s.permits s.dispatched hq (by omega) hp
  refine ⟨hd.1, ?_, hd.2.2.1, hd.2.2.2⟩
  show (dispatchGo s.queue (s.value + 1) s.permits s.dispatched).2.1 +
      ((((dispatchGo s.queue (s.value + 1) s.permits s.dispatched).2.2.1).filter
        (fun p => !p.released)).length : Int) ≤ 1
  have hsum := hd.2.1
  unfold unreleasedCount at h1
  omega

theorem markReleased_count_le (id : Nat) :
    ∀ ps : List Permit,
      ((markReleased ps id).filter (fun q => !q.released)).length ≤
        (ps.filter (fun q => !q.released)).length := by
  intro ps
  induction ps with
  | nil => simp [markReleased]
  | cons x rest ih =>
    by_cases hx : x.id = id
    · simp only [markReleased, List.map_cons, if_pos hx] at ih ⊢
      cases hr : x.released with
      | true => simpa [List.filter, hr] using ih
      | false =>
        simp only [List.filter, hr, Bool.not_false, Bool.not_true]
        calc ((markReleased rest id).filter (fun q => !q.released)).length ≤
            (rest.filter (fun q => !q.released)).length := ih
          _ ≤ (rest.filter (fun q => !q.released)).length + 1 := Nat.le_succ _
    · simp only [markReleased, List.map_cons, if_neg hx] at ih ⊢
      cases hr : x.released with
      | true => simpa [List.filter, hr] using ih
      | false => simpa [List.filter, hr] using ih

theorem markReleased_count_lt (id : Nat) :
    ∀ (ps : List Permit) (p : Permit),
      ps.find? (fun q => q.id == id) = some p → p.released = false →
      ((markReleased ps id).filter (fun q => !q.released)).length + 1 ≤
        (ps.filter (fun q => !q.released)).length := by
  intro ps
  induction ps with
  | nil => intro p h _; exact absurd h (by simp)
  | cons x rest ih =>
    intro p h hrel
    cases hx : (x.id == id) with
    | true =>
      simp only [List.find?, hx] at h
      have hxp : x = p := Option.some.inj h
      have hxid : x.id = id := by simpa using hx
      have hrelx : x.released = false := by rw [hxp]; exact hrel
      have hhead : (markReleased (x :: rest) id).filter (fun q => !q.released) =
          (markReleased rest id).filter (fun q => !q.released) := by
        simp [markReleased, List.filter, hxid]
      have horig : (x :: rest).filter (fun q => !q.released) =
          x :: rest.filter (fun q => !q.released) := by
        simp [List.filter, hrelx]
      rw [hhead, horig, List.length_cons]
      exact Nat.succ_le_succ (markReleased_count_le id rest)
    | false =>
      simp only [List.find?, hx] at h
      have hxid : ¬ x.id = id := by simpa using hx
      have := ih p h hrel
      simp only [markReleased, List.map_cons, if_neg hxid, List.filter] at this ⊢
      cases hr : !x.released with
      | true => simpa [hr] using Nat.succ_le_succ this
      | false => simpa [hr] using this

theorem markReleased_weight (ps : List Permit) (id : Nat)
    (hp : ∀ p ∈ ps, p.weight = 1) : ∀ p ∈ markReleased ps id, p.weight = 1 := by
  intro p hmem
  rw [markReleased] at hmem
  obtain ⟨x, hx, hfx⟩ := List.mem_map.mp hmem
  by_cases hid : x.id = id
  · rw [if_pos hid] at hfx
    rw [← hfx]
    exact hp x hx
  · rw [if_neg hid] at hfx
    rw [← hfx]
    exact hp x hx

theorem mutexStep_minv (s : SemState) (op : MutexOp) (hInv : MInv s)
    (hrel : op = MutexOp.release → unreleasedCount s = 0) :
    MInv (mutexStep s op) := by
  obtain ⟨hv, hsum, hq, hp⟩ := hInv
  cases op with
  | acquire id =>
    show MInv (semAcquire s id 1 0)
    rw [semAcquire, if_neg (by norm_num : (1 : Nat) ≠ 0)]
    by_cases hcond : findIndexFromEnd s.queue (fun t => (0 : Int) ≤ t.priority) = none ∧
        (((1 : Nat) : Int)) ≤ s.value
    · rw [if_pos hcond]
      refine ⟨by simp [dispatchItem]; omega, ?_, hq, ?_⟩
      · show s.value - 1 + (unreleasedCount _ : Int) ≤ 1
        unfold unreleasedCount at hsum ⊢
        simp only [dispatchItem]
        have hcnt : ((s.permits ++ [({ id := id, weight := 1, released := false } : Permit)]).filter
            (fun p => !p.released)).length = (s.permits.filter (fun p => !p.released)).length + 1 := by
          simp [List.filter_append]
        rw [hcnt]
        push_cast
        push_cast at hsum
        omega
      · intro p hmem
        simp only [dispatchItem] at hmem
        rcases List.mem_append.mp hmem with h' | h'
        · exact hp p h'
        · rcases List.mem_singleton.mp h' with rfl
          rfl
    · rw [if_neg hcond]
      refine ⟨hv, hsum, ?_, hp⟩
      intro t ht
      rcases mem_insertAt ht with rfl | ht'
      · rfl
      · exact hq t ht'
  | release =>
    show MInv (if s.value ≤ 0 then semRelease s 1 else s)
    by_cases hlk : s.value ≤ 0
    · rw [if_pos hlk]
      exact semRelease_minv s (by rw [hrel rfl]; push_cast; omega) hv hq hp
    · rw [if_neg hlk]
      exact ⟨hv, hsum, hq, hp⟩
  | releaser id =>
    show MInv (callReleaser s id)
    cases hf : s.permits.find? (fun p => p.id == id) with
    | none =>
      have heq : callReleaser s id = s := by simp [callReleaser, hf]
      rw [heq]
      exact ⟨hv, hsum, hq, hp⟩
    | some p =>
      by_cases hr2 : p.released = true
      · have heq : callReleaser s id = s := by simp [callReleaser, hf, hr2]
        rw [heq]
        exact ⟨hv, hsum, hq, hp⟩
      · have heq : callReleaser s id =
            semRelease { s with permits := markReleased s.permits id } p.weight := by
          simp [callReleaser, hf, hr2]
        have hw1 : p.weight = 1 := hp p (List.mem_of_find?_eq_some hf)
        rw [heq, hw1]
        refine semRelease_minv _ ?_ hv hq (markReleased_weight s.permits id hp)
        have hlt := markReleased_count_lt id s.permits p hf (by simpa using hr2)
        show s.value + 1 + (unreleasedCount { s with permits := markReleased s.permits id } : Int) ≤ 1
        unfold unreleasedCount at hsum ⊢
        simp only at hsum ⊢
        push_cast at hsum ⊢
        omega

theorem runMutex_minv (ops : List MutexOp) :
    ∀ s : SemState, MInv s →
      (∀ i : Fin ops.length, ops.get i = MutexOp.release →
        unreleasedCount (runMutex s (ops.take i)) = 0) →
      MInv (runMutex s ops) := by
  induction ops with
  | nil => intro s h _; exact h
  | cons op rest ih =>
    intro s h hrel
    show MInv (runMutex (mutexStep s op) rest)
    refine ih (mutexStep s op) ?_ ?_
    · refine mutexStep_minv s op h ?_
      intro hop
      have := hrel ⟨0, by simp⟩ (by simpa using hop)
      simpa [runMutex] using this
    · intro i hi
      have := hrel ⟨i.val + 1, by simp [Nat.succ_lt_succ_iff, i.isLt]⟩ (by simpa using hi)
      simpa [runMutex, List.take_succ_cons] using this

/-- Counterexample for C10 as stated: acquire the mutex (value 0), make one
spurious `Mutex.release` call while the permit is outstanding (isLocked is
true, so it releases: value 1), then invoke the permit's releaser (its
`called` flag was never set: value 2).  The underlying semaphore's value
exceeds 1. -/
theorem mutex_value_exceeds_one_counterexample :
    (runMutex (initSem 1) [MutexOp.acquire 0, MutexOp.release, MutexOp.releaser 0]).value = 2 := by
  decide

/-- Claim C10 as amended: `Mutex.release` is a no-op when the mutex is not
locked, and over every sequence of mutex operations in which `Mutex.release`
is only invoked when no outstanding permit is unreleased, the underlying
semaphore's value never exceeds 1. -/
theorem mutex_value_le_one (ops : List MutexOp)
    (hrel : ∀ i : Fin ops.length, ops.get i = MutexOp.release →
      unreleasedCount (runMutex (initSem 1) (ops.take i)) = 0) :
    (runMutex (initSem 1) ops).value ≤ 1 := by
  have h := runMutex_minv ops (initSem 1)
    ⟨by norm_num [initSem], by simp [initSem, unreleasedCount], by simp [initSem],
      by simp [initSem]⟩ hrel
  have h1 := h.2.1
  have h2 : (0 : Int) ≤ (unreleasedCount (runMutex (initSem 1) ops) : Int) := by positivity
  omega

/-- Witness for the amended C10 at a concrete operation sequence. -/
theorem mutex_value_le_one_witness :
    (runMutex (initSem 1)
      [MutexOp.acquire 0, MutexOp.releaser 0, MutexOp.release]).value ≤ 1 :=
  mutex_value_le_one [MutexOp.acquire 0, MutexOp.releaser 0, MutexOp.release] (by decide)

def otherTask : Fin 2 → Fin 2
  | ⟨0, _⟩ => 1
  | ⟨_ + 1, _⟩ => 0

theorem otherTask_ne (a : Fin 2) : otherTask a ≠ a := by
  fin_cases a <;> decide

theorem otherTask_zero : otherTask 0 = 1 := rfl

theorem otherTask_one : otherTask 1 = 0 := rfl

theorem fin2_eq_zero_or_one (a : Fin 2) : a = 0 ∨ a = 1 := by
  fin_cases a <;> [exact Or.inl rfl; exact Or.inr rfl]

theorem eq_or_eq_otherTask (a t : Fin 2) : t = a ∨ t = otherTask a := by
  fin_cases a <;> fin_cases t <;> simp [otherTask]

/-- The stage of the task currently holding the lock: it has read nothing
yet (store still at the base value), it has read (its saved copy equals the
store), or it has written (the store carries its merge). -/
def HolderStage (fns : Fin 2 → V → V) (c : TwoCfg K V) (k : K) (a : Fin 2) (bv : V) : Prop :=
  (c.pc a = TPc.rd ∧ c.store k = bv) ∨
  (c.pc a = TPc.wr ∧ c.store k = bv ∧ c.saved a = bv) ∨
  (c.pc a = TPc.rel ∧ c.store k = fns a bv)

/-- Reachability invariant when both tasks share one scope key: the mutex
serialises the two critical sections, so the store always carries zero, one
or both merges applied in order. -/
def SameKeyInv (keys : Fin 2 → K) (fns : Fin 2 → V → V) (s0 : K → V) (c : TwoCfg K V) : Prop :=
  (c.pc 0 = TPc.acq ∧ c.pc 1 = TPc.acq ∧ c.mutex (keys 0) = ⟨false, []⟩ ∧
    c.store (keys 0) = s0 (keys 0)) ∨
  (∃ a, c.pc (otherTask a) = TPc.acq ∧ c.mutex (keys 0) = ⟨true, []⟩ ∧
    HolderStage fns c (keys 0) a (s0 (keys 0))) ∨
  (∃ a, c.pc (otherTask a) = TPc.blocked ∧ c.mutex (keys 0) = ⟨true, [otherTask a]⟩ ∧
    HolderStage fns c (keys 0) a (s0 (keys 0))) ∨
  (∃ a, c.pc a = TPc.done ∧ c.pc (otherTask a) = TPc.acq ∧ c.mutex (keys 0) = ⟨false, []⟩ ∧
    c.store (keys 0) = fns a (s0 (keys 0))) ∨
  (∃ a, c.pc a = TPc.done ∧ c.mutex (keys 0) = ⟨true, []⟩ ∧
    HolderStage fns c (keys 0) (otherTask a) (fns a (s0 (keys 0)))) ∨
  (c.pc 0 = TPc.done ∧ c.pc 1 = TPc.done ∧ c.mutex (keys 0) = ⟨false, []⟩ ∧
    (c.store (keys 0) = fns 1 (fns 0 (s0 (keys 0))) ∨
      c.store (keys 0) = fns 0 (fns 1 (s0 (keys 0)))))

theorem sameKeyInv_step {K V : Type} [DecidableEq K] (keys : Fin 2 → K) (fns : Fin 2 → V → V)
    (s0 : K → V) (hk : keys 0 = keys 1) (c : TwoCfg K V) (t : Fin 2)
    (h : SameKeyInv keys fns s0 c) : SameKeyInv keys fns s0 (taskStep keys fns c t) := by
  have hku : ∀ u : Fin 2, keys u = keys 0 := Fin.forall_fin_two.mpr ⟨rfl, hk.symm⟩
  rcases h with ⟨h0, h1, hmut, hst⟩ | ⟨a, hother, hmut, hstage⟩ | ⟨a, hother, hmut, hstage⟩ |
    ⟨a, hdone, hother, hmut, hst⟩ | ⟨a, hdone, hmut, hstage⟩ | ⟨h0, h1, hmut, hst⟩
  · -- both at acq: the stepping task locks the mutex and goes on to read
    have hall : ∀ u : Fin 2, c.pc u = TPc.acq := Fin.forall_fin_two.mpr ⟨h0, h1⟩
    refine Or.inr (Or.inl ⟨t, ?_, ?_, Or.inl ⟨?_, ?_⟩⟩)
    · simp [taskStep, hall t, hku, hmut, Function.update_noteq (otherTask_ne t), hall]
    · simp [taskStep, hall t, hku, hmut]
    · simp [taskStep, hall t, hku, hmut]
    · simp [taskStep, hall t, hku, hmut, hst]
  · -- holder a in its critical section, the other task not yet arrived
    rcases eq_or_eq_otherTask a t with rfl | rfl
    · rcases hstage with ⟨hpc, hst⟩ | ⟨hpc, hst, hsv⟩ | ⟨hpc, hst⟩
      · refine Or.inr (Or.inl ⟨t, ?_, ?_, Or.inr (Or.inl ⟨?_, ?_, ?_⟩)⟩)
        · simp [taskStep, hpc, Function.update_noteq (otherTask_ne t), hother]
        · simp [taskStep, hpc, hmut]
        · simp [taskStep, hpc]
        · simp [taskStep, hpc, hst]
        · simp [taskStep, hpc, hku, hst]
      · refine Or.inr (Or.inl ⟨t, ?_, ?_, Or.inr (Or.inr ⟨?_, ?_⟩)⟩)
        · simp [taskStep, hpc, Function.update_noteq (otherTask_ne t), hother]
        · simp [taskStep, hpc, hmut]
        · simp [taskStep, hpc]
        · simp [taskStep, hpc, hku, hsv]
      · refine Or.inr (Or.inr (Or.inr (Or.inl ⟨t, ?_, ?_, ?_, ?_⟩)))
        · simp [taskStep, hpc, hku, hmut]
        · simp [taskStep, hpc, hku, hmut, Function.update_noteq (otherTask_ne t), hother]
        · simp [taskStep, hpc, hku, hmut]
        · simp [taskStep, hpc, hku, hmut, hst]
    · -- the other task arrives while a holds the lock: it is queued
      refine Or.inr (Or.inr (Or.inl ⟨a, ?_, ?_, ?_⟩))
      · simp [taskStep, hother, hku, hmut]
      · simp [taskStep, hother, hku, hmut]
      · rcases hstage with ⟨hpc, hst⟩ | ⟨hpc, hst, hsv⟩ | ⟨hpc, hst⟩
        · exact Or.inl ⟨by simp [taskStep, hother, hku, hmut,
            Function.update_noteq (otherTask_ne a).symm, hpc],
            by simp [taskStep, hother, hku, hmut, hst]⟩
        · exact Or.inr (Or.inl ⟨by simp [taskStep, hother, hku, hmut,
            Function.update_noteq (otherTask_ne a).symm, hpc],
            by simp [taskStep, hother, hku, hmut, hst],
            by simp [taskStep, hother, hku, hmut, hsv]⟩)
        · exact Or.inr (Or.inr ⟨by simp [taskStep, hother, hku, hmut,
            Function.update_noteq (otherTask_ne a).symm, hpc],
            by simp [taskStep, hother, hku, hmut, hst]⟩)
  · -- holder a in its critical section, the other task queued
    rcases eq_or_eq_otherTask a t with rfl | rfl
    · rcases hstage with ⟨hpc, hst⟩ | ⟨hpc, hst, hsv⟩ | ⟨hpc, hst⟩
      · refine Or.inr (Or.inr (Or.inl ⟨t, ?_, ?_, Or.inr (Or.inl ⟨?_, ?_, ?_⟩)⟩))
        · simp [taskStep, hpc, Function.update_noteq (otherTask_ne t), hother]
        · simp [taskStep, hpc, hmut]
        · simp [taskStep, hpc]
        · simp [taskStep, hpc, hst]
        · simp [taskStep, hpc, hku, hst]
      · refine Or.inr (Or.inr (Or.inl ⟨t, ?_, ?_, Or.inr (Or.inr ⟨?_, ?_⟩)⟩))
        · simp [taskStep, hpc, Function.update_noteq (otherTask_ne t), hother]
        · simp [taskStep, hpc, hmut]
        · simp [taskStep, hpc]
        · simp [taskStep, hpc, hku, hsv]
      · -- release hands the lock to the queued task, which resumes at read
        refine Or.inr (Or.inr (Or.inr (Or.inr (Or.inl ⟨t, ?_, ?_, Or.inl ⟨?_, ?_⟩⟩))))
        · simp [taskStep, hpc, hku, hmut, Function.update_noteq (otherTask_ne t).symm,
            Function.update_noteq (otherTask_ne t)]
        · simp [taskStep, hpc, hku, hmut]
        · simp [taskStep, hpc, hku, hmut]
        · simp [taskStep, hpc, hku, hmut, hst]
    · -- the queued task is scheduled: no-op
      have heq : taskStep keys fns c (otherTask a) = c := by
        simp [taskStep, hother]
      rw [heq]
      exact Or.inr (Or.inr (Or.inl ⟨a, hother, hmut, hstage⟩))
  · -- first task done, second not yet arrived
    rcases eq_or_eq_otherTask a t with rfl | rfl
    · have heq : taskStep keys fns c t = c := by simp [taskStep, hdone]
      rw [heq]
      exact Or.inr (Or.inr (Or.inr (Or.inl ⟨t, hdone, hother, hmut, hst⟩)))
    · refine Or.inr (Or.inr (Or.inr (Or.inr (Or.inl ⟨a, ?_, ?_, Or.inl ⟨?_, ?_⟩⟩))))
      · simp [taskStep, hother, hku, hmut, Function.update_noteq (otherTask_ne a).symm, hdone]
      · simp [taskStep, hother, hku, hmut]
      · simp [taskStep, hother, hku, hmut]
      · simp [taskStep, hother, hku, hmut, hst]
  · -- first task done, second in its critical section
    rcases eq_or_eq_otherTask a t with rfl | rfl
    · have heq : taskStep keys fns c t = c := by simp [taskStep, hdone]
      rw [heq]
      exact Or.inr (Or.inr (Or.inr (Or.inr (Or.inl ⟨t, hdone, hmut, hstage⟩))))
    · rcases hstage with ⟨hpc, hst⟩ | ⟨hpc, hst, hsv⟩ | ⟨hpc, hst⟩
      · refine Or.inr (Or.inr (Or.inr (Or.inr (Or.inl ⟨a, ?_, ?_,
          Or.inr (Or.inl ⟨?_, ?_, ?_⟩)⟩))))
        · simp [taskStep, hpc, Function.update_noteq (otherTask_ne a).symm, hdone]
        · simp [taskStep, hpc, hmut]
        · simp [taskStep, hpc]
        · simp [taskStep, hpc, hst]
        · simp [taskStep, hpc, hku, hst]
      · refine Or.inr (Or.inr (Or.inr (Or.inr (Or.inl ⟨a, ?_, ?_,
          Or.inr (Or.inr ⟨?_, ?_⟩)⟩))))
        · simp [taskStep, hpc, Function.update_noteq (otherTask_ne a).symm, hdone]
        · simp [taskStep, hpc, hmut]
        · simp [taskStep, hpc]
        · simp [taskStep, hpc, hku, hsv]
      · -- second release: both done, store carries both merges in order
        rcases fin2_eq_zero_or_one a with rfl | rfl
        · simp only [otherTask_zero] at hpc hst ⊢
          refine Or.inr (Or.inr (Or.inr (Or.inr (Or.inr ⟨?_, ?_, ?_, Or.inl ?_⟩))))
          · simp [taskStep, hpc, hku, hmut,
              Function.update_noteq (by decide : (0 : Fin 2) ≠ 1), hdone]
          · simp [taskStep, hpc, hku, hmut]
          · simp [taskStep, hpc, hku, hmut]
          · simp [taskStep, hpc, hku, hmut, hst]
        · simp only [otherTask_one] at hpc hst ⊢
          refine Or.inr (Or.inr (Or.inr (Or.inr (Or.inr ⟨?_, ?_, ?_, Or.inr ?_⟩))))
          · simp [taskStep, hpc, hku, hmut]
          · simp [taskStep, hpc, hku, hmut,
              Function.update_noteq (by decide : (1 : Fin 2) ≠ 0), hdone]
          · simp [taskStep, hpc, hku, hmut]
          · simp [taskStep, hpc, hku, hmut, hst]
  · -- both done: no-op
    have hall : ∀ u : Fin 2, c.pc u = TPc.done := Fin.forall_fin_two.mpr ⟨h0, h1⟩
    have heq : taskStep keys fns c t = c := by simp [taskStep, hall t]
    rw [heq]
    exact Or.inr (Or.inr (Or.inr (Or.inr (Or.inr ⟨h0, h1, hmut, hst⟩))))

theorem sameKeyInv_run {K V : Type} [DecidableEq K] (keys : Fin 2 → K) (fns : Fin 2 → V → V)
    (s0 : K → V) (hk : keys 0 = keys 1) :
    ∀ (sched : List (Fin 2)) (c : TwoCfg K V), SameKeyInv keys fns s0 c →
      SameKeyInv keys fns s0 (runSched keys fns c sched) := by
  intro sched
  induction sched with
  | nil => intro c h; exact h
  | cons t rest ih => intro c h; exact ih _ (sameKeyInv_step keys fns s0 hk c t h)

/-- Whether a task in this program phase holds its key's lock. -/
def lockedOf : TPc → Bool
  | TPc.rd => true
  | TPc.wr => true
  | TPc.rel => true
  | _ => false

/-- Reachability invariant when the two tasks use different scope keys: no
task is ever blocked, and each task's mutex records exactly its own
progress with an empty waiting queue. -/
def DiffKeyInv (keys : Fin 2 → K) (c : TwoCfg K V) : Prop :=
  ∀ t, c.pc t ≠ TPc.blocked ∧ c.mutex (keys t) = ⟨lockedOf (c.pc t), []⟩

theorem keys_ne {K : Type} (keys : Fin 2 → K) (hk : keys 0 ≠ keys 1) {u t : Fin 2}
    (hut : u ≠ t) : keys u ≠ keys t := by
  rcases fin2_eq_zero_or_one u with rfl | rfl <;> rcases fin2_eq_zero_or_one t with rfl | rfl
  · exact absurd rfl hut
  · exact hk
  · exact hk.symm
  · exact absurd rfl hut

theorem diffKeyInv_step {K V : Type} [DecidableEq K] (keys : Fin 2 → K) (fns : Fin 2 → V → V)
    (hk : keys 0 ≠ keys 1) (c : TwoCfg K V) (t : Fin 2) (h : DiffKeyInv keys c) :
    DiffKeyInv keys (taskStep keys fns c t) := by
  intro u
  obtain ⟨hnbt, hmt⟩ := h t
  obtain ⟨hnbu, hmu⟩ := h u
  by_cases hut : u = t
  · subst hut
    cases hpc : c.pc u with
    | acq =>
      rw [hpc] at hmu
      constructor
      · simp [taskStep, hpc, hmu, lockedOf]
      · simp [taskStep, hpc, hmu, lockedOf]
    | rd =>
      rw [hpc] at hmu
      constructor
      · simp [taskStep, hpc, hmu, lockedOf]
      · simp [taskStep, hpc, hmu, lockedOf]
    | wr =>
      rw [hpc] at hmu
      constructor
      · simp [taskStep, hpc, hmu, lockedOf]
      · simp [taskStep, hpc, hmu, lockedOf]
    | rel =>
      rw [hpc] at hmu
      constructor
      · simp [taskStep, hpc, hmu, lockedOf]
      · simp [taskStep, hpc, hmu, lockedOf]
    | blocked => exact absurd hpc hnbu
    | done =>
      have heq : taskStep keys fns c u = c := by simp [taskStep, hpc]
      rw [heq]
      exact ⟨hnbu, hmu⟩
  · have hkne : keys u ≠ keys t := keys_ne keys hk hut
    cases hpc : c.pc t with
    | acq =>
      rw [hpc] at hmt
      constructor
      · simp [taskStep, hpc, hmt, lockedOf, Function.update_noteq hut, hnbu]
      · simp [taskStep, hpc, hmt, lockedOf, Function.update_noteq hut,
          Function.update_noteq hkne, hmu]
    | rd =>
      constructor
      · simp [taskStep, hpc, Function.update_noteq hut, hnbu]
      · simp [taskStep, hpc, Function.update_noteq hut, hmu]
    | wr =>
      constructor
      · simp [taskStep, hpc, Function.update_noteq hut, hnbu]
      · simp [taskStep, hpc, Function.update_noteq hut, hmu]
    | rel =>
      rw [hpc] at hmt
      constructor
      · simp [taskStep, hpc, hmt, Function.update_noteq hut, hnbu]
      · simp [taskStep, hpc, hmt, Function.update_noteq hut,
          Function.update_noteq hkne, hmu]
    | blocked =>
      have heq : taskStep keys fns c t = c := by simp [taskStep, hpc]
      rw [heq]
      exact ⟨hnbu, hmu⟩
    | done =>
      have heq : taskStep keys fns c t = c := by simp [taskStep, hpc]
      rw [heq]
      exact ⟨hnbu, hmu⟩

theorem diffKeyInv_run {K V : Type} [DecidableEq K] (keys : Fin 2 → K) (fns : Fin 2 → V → V)
    (hk : keys 0 ≠ keys 1) :
    ∀ (sched : List (Fin 2)) (c : TwoCfg K V), DiffKeyInv keys c →
      DiffKeyInv keys (runSched keys fns c sched) := by
  intro sched
  induction sched with
  | nil => intro c h; exact h
  | cons t rest ih => intro c h; exact ih _ (diffKeyInv_step keys fns hk c t h)

/-- Claim C2: two concurrent working-memory updates on the same scope key
are fully serialised by the per-key mutex — in every interleaving in which
both complete, the final stored value is the two merges applied
sequentially in one of the two orders (never a lost update) — while updates
on different scope keys never wait on each other (no interleaving ever
blocks either task). -/
theorem updateWM_mutex_serializes {K V : Type} [DecidableEq K]
    (keys : Fin 2 → K) (fns : Fin 2 → V → V) (s0 : K → V) (sched : List (Fin 2)) :
    (keys 0 = keys 1 →
      (runSched keys fns (initCfg keys s0) sched).pc 0 = TPc.done →
      (runSched keys fns (initCfg keys s0) sched).pc 1 = TPc.done →
      ((runSched keys fns (initCfg keys s0) sched).store (keys 0) =
          fns 1 (fns 0 (s0 (keys 0))) ∨
        (runSched keys fns (initCfg keys s0) sched).store (keys 0) =
          fns 0 (fns 1 (s0 (keys 0))))) ∧
    (keys 0 ≠ keys 1 →
      ∀ t, (runSched keys fns (initCfg keys s0) sched).pc t ≠ TPc.blocked) := by
  constructor
  · intro hk h0 h1
    have hinit : SameKeyInv keys fns s0 (initCfg keys s0) :=
      Or.inl ⟨rfl, rfl, rfl, rfl⟩
    have hfin := sameKeyInv_run keys fns s0 hk sched (initCfg keys s0) hinit
    have hall : ∀ u : Fin 2, (runSched keys fns (initCfg keys s0) sched).pc u = TPc.done :=
      Fin.forall_fin_two.mpr ⟨h0, h1⟩
    rcases hfin with ⟨hpc0, _, _, _⟩ | ⟨a, hother, _, hstage⟩ | ⟨a, hother, _, _⟩ |
      ⟨a, _, hother, _, _⟩ | ⟨a, _, _, hstage⟩ | ⟨_, _, _, hst⟩
    · rw [hall 0] at hpc0; cases hpc0
    · rw [hall (otherTask a)] at hother; cases hother
    · rw [hall (otherTask a)] at hother; cases hother
    · rw [hall (otherTask a)] at hother; cases hother
    · rcases hstage with ⟨hpc, _⟩ | ⟨hpc, _, _⟩ | ⟨hpc, _⟩ <;>
        (rw [hall (otherTask a)] at hpc; cases hpc)
    · exact hst
  · intro hk t
    have hinit : DiffKeyInv keys (initCfg keys s0) := fun u => ⟨by simp [initCfg], rfl⟩
    exact (diffKeyInv_run keys fns hk sched (initCfg keys s0) hinit t).1

/-- Witness for C2 at concrete inputs: a schedule running both tasks on the
same key to completion yields the sequential composition, and on different
keys a fully interleaved schedule never blocks either task. -/
theorem updateWM_mutex_serializes_witness :
    ((runSched (fun _ => true) (fun t n => n + n + t.val)
        (initCfg (fun _ => true) (fun _ => 5)) [0, 0, 0, 0, 1, 1, 1, 1]).store true =
          (fun (t : Fin 2) (n : Nat) => n + n + t.val) 1
            ((fun (t : Fin 2) (n : Nat) => n + n + t.val) 0 5) ∨
      (runSched (fun _ => true) (fun t n => n + n + t.val)
        (initCfg (fun _ => true) (fun _ => 5)) [0, 0, 0, 0, 1, 1, 1, 1]).store true =
          (fun (t : Fin 2) (n : Nat) => n + n + t.val) 0
            ((fun (t : Fin 2) (n : Nat) => n + n + t.val) 1 5)) ∧
    (∀ t, (runSched (fun u => decide (u = 1)) (fun t n => n + n + t.val)
      (initCfg (fun u => decide (u = 1)) (fun _ => 5)) [0, 1, 0, 1, 0, 1, 0, 1]).pc t ≠
        TPc.blocked) :=
  ⟨(updateWM_mutex_serializes (fun _ => true) (fun t n => n + n + t.val) (fun _ => 5)
      [0, 0, 0, 0, 1, 1, 1, 1]).1 rfl (by decide) (by decide),
    (updateWM_mutex_serializes (fun u => decide (u = 1)) (fun t n => n + n + t.val)
      (fun _ => 5) [0, 1, 0, 1, 0, 1, 0, 1]).2 (by decide)⟩

